import Mathlib

/-!
Verification of the batch-table transcoding pipeline of
`Source/Scene/parseBatchTable.js`.

The JavaScript source is shallowly embedded: JSON values are an inductive
type, JavaScript objects are association lists of own properties plus an
association list of properties inherited through the prototype chain,
`undefined` is `Option.none`, and object mutation is made explicit by
state passing (the partition function returns the possibly mutated batch
table alongside its results).  Collaborator code that is not part of the
two source files (`Check`, `getBinaryAccessor`, typed-array view
construction, the `JsonMetadataTable` / `FeatureTable` / `MetadataSchema`
/ `FeatureMetadata` / `BatchTableHierarchy` containers) is modelled from
the specification, as marked on each such definition.
-/

/-- JSON values as stored in a batch table.  Numbers are modelled as
integers: every numeric field the pipeline reads (`byteOffset`, feature
counts) is an integer in the data model. -/
inductive JsonValue where
  | null : JsonValue
  | bool (b : Bool) : JsonValue
  | num (n : Int) : JsonValue
  | str (s : String) : JsonValue
  | arr (elements : List JsonValue) : JsonValue
  | obj (fields : List (String × JsonValue)) : JsonValue

/-- A JavaScript object: the association list of its own enumerable
properties, in insertion order, plus the properties reachable through the
prototype chain. -/
structure JsObject where
  own : List (String × JsonValue)
  inherited : List (String × JsonValue)

/-- Property access `o[k]`: the own properties shadow the inherited
ones. -/
def JsObject.get (o : JsObject) (k : String) : Option JsonValue :=
  match o.own.lookup k with
  | some v => some v
  | none => o.inherited.lookup k

/-- The `hasOwnProperty` test: only own properties count. -/
def JsObject.hasOwn (o : JsObject) (k : String) : Bool :=
  (o.own.lookup k).isSome

/-- Key order of a `for (k in o)` loop: own keys in insertion order, then
inherited keys that are not shadowed by an own key. -/
def JsObject.forInKeys (o : JsObject) : List String :=
  o.own.map Prod.fst ++
    (o.inherited.map Prod.fst).filter (fun k => !(o.own.map Prod.fst).contains k)

/-- Cesium `defined(x)`: false exactly for `undefined` and `null`. -/
def jsDefined : Option JsonValue → Bool
  | none => false
  | some .null => false
  | some _ => true

/-- Normalizing view of a slot through `defined`: `null` collapses to
`undefined`. -/
def getDefined (x : Option JsonValue) : Option JsonValue :=
  if jsDefined x then x else none

/-- Field read on a JSON value; only objects have fields. -/
def JsonValue.getField : JsonValue → String → Option JsonValue
  | .obj fields, k => fields.lookup k
  | _, _ => none

/-- Replace the value of every entry of an association list carrying the
given key, keeping positions. -/
def updateAssoc (l : List (String × JsonValue)) (k : String) (v : JsonValue) :
    List (String × JsonValue) :=
  l.map (fun p => if p.1 = k then (k, v) else p)

/-- JavaScript property assignment `o[k] = v` on an object: replace the
entry in place when the key exists, append it otherwise.  On a non-object
the assignment is a no-op in this model (its only uses in the claims are
on objects or on a freshly created object). -/
def JsonValue.setField : JsonValue → String → JsonValue → JsonValue
  | .obj fields, k, v =>
      if (fields.lookup k).isSome then .obj (updateAssoc fields k v)
      else .obj (fields ++ [(k, v)])
  | j, _, _ => j

/-- String access `s.charAt(i)`: the one-character string at index `i`,
or the empty string when out of range. -/
def charAt (s : String) (i : Nat) : String :=
  match s.data.get? i with
  | some c => String.mk [c]
  | none => ""

/-- Result of `parseInt` applied to the output of `charAt`: a single
decimal digit parses to its value, anything else is `NaN`, modelled as
`none`. -/
def parseIntDigit (s : String) : Option Nat :=
  match s.data with
  | [c] => if c.isDigit then some (c.toNat - 48) else none
  | _ => none

/-- An `ArrayBuffer` handle: an identity (so that sharing versus copying
is expressible) together with the byte contents. -/
structure ArrayBufferRef where
  id : Nat
  data : List Nat
  deriving DecidableEq, Repr

/-- The `binaryBody` `Uint8Array`: a view over an `ArrayBuffer` at a byte
offset. -/
structure BinaryBody where
  buffer : ArrayBufferRef
  byteOffset : Nat
  deriving DecidableEq, Repr

/-- Source `transcodeComponentType`: the switch over the eight legacy
component-type tags; any other tag falls through and returns
`undefined`. -/
def transcodeComponentType (componentType : String) : Option String :=
  if componentType = "BYTE" then some "INT8"
  else if componentType = "UNSIGNED_BYTE" then some "UINT8"
  else if componentType = "SHORT" then some "INT16"
  else if componentType = "UNSIGNED_SHORT" then some "UINT16"
  else if componentType = "INT" then some "INT32"
  else if componentType = "UNSIGNED_INT" then some "UINT32"
  else if componentType = "FLOAT" then some "FLOAT32"
  else if componentType = "DOUBLE" then some "FLOAT64"
  else none

/-- The feature-metadata property definition produced by
`transcodePropertyType`: the `SCALAR` branch carries only `type`, the
vector branch carries all three fields.  Absent fields are `none`. -/
structure TranscodedProperty where
  type : Option String
  componentType : Option String
  componentCount : Option Nat
  deriving DecidableEq, Repr

/-- Read of `property.componentType` as the string the switch matches on:
a non-string value matches no case, the same as an unknown tag. -/
def propComponentType (property : JsonValue) : Option String :=
  match property.getField "componentType" with
  | some (.str s) => some s
  | _ => none

/-- Strict comparison of the `property.type` slot against the string
SCALAR, as in the source comparison `propertyType === "SCALAR"`. -/
def isScalarTag : Option JsonValue → Bool
  | some (.str s) => s = "SCALAR"
  | _ => false

/-- Source `transcodePropertyType`: map the component type, return
`{type: componentType}` for `SCALAR`, and otherwise an `ARRAY`
descriptor whose `componentCount` is `parseInt(propertyType.charAt(3))`.
A missing or non-string `type` field, on which the JavaScript `charAt`
call would throw, yields `componentCount = none` here; no claim reaches
that case. -/
def transcodePropertyType (property : JsonValue) : TranscodedProperty :=
  let componentType := (propComponentType property).bind transcodeComponentType
  let propertyType := property.getField "type"
  if isScalarTag propertyType then
    { type := componentType, componentType := none, componentCount := none }
  else
    let componentCount : Option Nat :=
      match propertyType with
      | some (.str s) => parseIntDigit (charAt s 3)
      | _ => none
    { type := some "ARRAY", componentType := componentType,
      componentCount := componentCount }

/-- CLAIM C3: `transcodeComponentType` maps exactly the eight legacy tags
BYTE to INT8, UNSIGNED_BYTE to UINT8, SHORT to INT16, UNSIGNED_SHORT to
UINT16, INT to INT32, UNSIGNED_INT to UINT32, FLOAT to FLOAT32 and DOUBLE
to FLOAT64, and returns `undefined` (here `none`) for every other input,
with no diagnostic. -/
theorem transcodeComponentType_maps_exactly_eight :
    transcodeComponentType "BYTE" = some "INT8" ∧
    transcodeComponentType "UNSIGNED_BYTE" = some "UINT8" ∧
    transcodeComponentType "SHORT" = some "INT16" ∧
    transcodeComponentType "UNSIGNED_SHORT" = some "UINT16" ∧
    transcodeComponentType "INT" = some "INT32" ∧
    transcodeComponentType "UNSIGNED_INT" = some "UINT32" ∧
    transcodeComponentType "FLOAT" = some "FLOAT32" ∧
    transcodeComponentType "DOUBLE" = some "FLOAT64" ∧
    ∀ s : String,
      s ∉ ["BYTE", "UNSIGNED_BYTE", "SHORT", "UNSIGNED_SHORT", "INT",
           "UNSIGNED_INT", "FLOAT", "DOUBLE"] →
      transcodeComponentType s = none := by
  refine ⟨rfl, rfl, rfl, rfl, rfl, rfl, rfl, rfl, ?_⟩
  intro s hs
  simp only [List.mem_cons, List.mem_singleton, not_or] at hs
  obtain ⟨h1, h2, h3, h4, h5, h6, h7, h8, -⟩ := hs
  simp [transcodeComponentType, h1, h2, h3, h4, h5, h6, h7, h8]

/-- Witness for C3: the unknown tag MAT2 maps to `none`. -/
theorem transcodeComponentType_maps_exactly_eight_witness :
    transcodeComponentType "MAT2" = none :=
  transcodeComponentType_maps_exactly_eight.2.2.2.2.2.2.2.2 "MAT2" (by decide)

/-- CLAIM C4: for a binary property whose component type reads as the
string `ct`, `transcodePropertyType` returns `{type: mapped ct}` with no
`componentType` and no `componentCount` field when the legacy type is
SCALAR, and `{type: ARRAY, componentType: mapped ct, componentCount: n}`
with `n` the trailing digit 2, 3 or 4 when the legacy type is VEC2, VEC3
or VEC4. -/
theorem transcodePropertyType_scalar_vec :
    ∀ (property : JsonValue) (ct : String),
      propComponentType property = some ct →
      (property.getField "type" = some (.str "SCALAR") →
        transcodePropertyType property =
          { type := transcodeComponentType ct, componentType := none,
            componentCount := none }) ∧
      (property.getField "type" = some (.str "VEC2") →
        transcodePropertyType property =
          { type := some "ARRAY", componentType := transcodeComponentType ct,
            componentCount := some 2 }) ∧
      (property.getField "type" = some (.str "VEC3") →
        transcodePropertyType property =
          { type := some "ARRAY", componentType := transcodeComponentType ct,
            componentCount := some 3 }) ∧
      (property.getField "type" = some (.str "VEC4") →
        transcodePropertyType property =
          { type := some "ARRAY", componentType := transcodeComponentType ct,
            componentCount := some 4 }) := by
  intro property ct hct
  have h2 : parseIntDigit (charAt "VEC2" 3) = some 2 := rfl
  have h3 : parseIntDigit (charAt "VEC3" 3) = some 3 := rfl
  have h4 : parseIntDigit (charAt "VEC4" 3) = some 4 := rfl
  refine ⟨?_, ?_, ?_, ?_⟩ <;> intro hty <;>
    simp [transcodePropertyType, hct, hty, isScalarTag, h2, h3, h4]

/-- Witness for C4: a FLOAT VEC3 property transcodes to an ARRAY of three
FLOAT32 components. -/
theorem transcodePropertyType_scalar_vec_witness :
    transcodePropertyType
        (JsonValue.obj [("componentType", JsonValue.str "FLOAT"),
                        ("type", JsonValue.str "VEC3"),
                        ("byteOffset", JsonValue.num 0)]) =
      { type := some "ARRAY", componentType := some "FLOAT32",
        componentCount := some 3 } :=
  (transcodePropertyType_scalar_vec
    (JsonValue.obj [("componentType", JsonValue.str "FLOAT"),
                    ("type", JsonValue.str "VEC3"),
                    ("byteOffset", JsonValue.num 0)]) "FLOAT" rfl).2.2.1 rfl

/-- Modelled from the spec: the binary accessor returned by
`getBinaryAccessor` (a collaborator that is not among the source files)
is a pure function of the component type and the property type, giving
the byte size of one primitive value and the number of primitive values
per logical element; unrecognized tags have no defined size or count. -/
structure BinaryAccessor where
  elementSize : Option Nat
  componentCount : Option Nat
  deriving DecidableEq, Repr

/-- Modelled from the spec: byte size of one primitive value of each
legacy component type. -/
def componentSizeOf : Option String → Option Nat
  | some "BYTE" => some 1
  | some "UNSIGNED_BYTE" => some 1
  | some "SHORT" => some 2
  | some "UNSIGNED_SHORT" => some 2
  | some "INT" => some 4
  | some "UNSIGNED_INT" => some 4
  | some "FLOAT" => some 4
  | some "DOUBLE" => some 8
  | _ => none

/-- Modelled from the spec: number of primitive values per logical
element of each legacy property type. -/
def componentCountOf : Option String → Option Nat
  | some "SCALAR" => some 1
  | some "VEC2" => some 2
  | some "VEC3" => some 3
  | some "VEC4" => some 4
  | _ => none

/-- Read of the `type` field of a property as a string tag. -/
def propTypeTag (property : JsonValue) : Option String :=
  match property.getField "type" with
  | some (.str s) => some s
  | _ => none

/-- Modelled from the spec: `getBinaryAccessor(property)` computes the
accessor from the component type and property type of the property. -/
def getBinaryAccessor (property : JsonValue) : BinaryAccessor :=
  { elementSize := componentSizeOf (propComponentType property),
    componentCount := componentCountOf (propTypeTag property) }

/-- Modelled from the spec: a typed view over a shared buffer.  The view
holds the buffer handle itself (sharing, not copying), a starting byte
offset (`none` models the NaN produced when the declared offset is
missing), and spans `elementCount` logical elements of `componentCount`
primitives of `componentSize` bytes each. -/
structure TypedBufferView where
  buffer : ArrayBufferRef
  byteOffset : Option Int
  elementCount : Nat
  componentCount : Option Nat
  componentSize : Option Nat
  deriving DecidableEq, Repr

/-- Modelled from the spec: `binaryAccessor.createArrayBufferView(buffer,
byteOffset, length)` constructs a typed view over `buffer` beginning at
`byteOffset` and spanning `length` logical elements, sharing storage
with `buffer` and never copying. -/
def createArrayBufferView (accessor : BinaryAccessor) (buffer : ArrayBufferRef)
    (byteOffset : Option Int) (length : Nat) : TypedBufferView :=
  { buffer := buffer, byteOffset := byteOffset, elementCount := length,
    componentCount := accessor.componentCount,
    componentSize := accessor.elementSize }

/-- Read of `property.byteOffset` as an integer. -/
def propByteOffset (property : JsonValue) : Option Int :=
  match property.getField "byteOffset" with
  | some (.num n) => some n
  | _ => none

/-- The view the loop body of `transcodeBinaryProperties` builds for one
property: `binaryAccessor.createArrayBufferView(binaryBody.buffer,
binaryBody.byteOffset + property.byteOffset, featureCount)`. -/
def mkBinaryView (featureCount : Nat) (binaryBody : BinaryBody)
    (property : JsonValue) : TypedBufferView :=
  createArrayBufferView (getBinaryAccessor property) binaryBody.buffer
    ((propByteOffset property).map (fun o => (binaryBody.byteOffset : Int) + o))
    featureCount

/-- One entry of the feature-table `properties` object: `{bufferView:
slot}`. -/
structure FeatureTableProperty where
  bufferView : Nat
  deriving DecidableEq, Repr

/-- The `featureTableJson` object assembled by
`transcodeBinaryProperties` (the `class` field is named `classId`, since
`class` is reserved in Lean). -/
structure FeatureTableJson where
  classId : String
  count : Nat
  properties : List (String × FeatureTableProperty)
  deriving DecidableEq, Repr

/-- Modelled from the spec: one class of a metadata schema, a mapping
from property identifier to its transcoded type definition. -/
structure ClassDefinition where
  properties : List (String × TranscodedProperty)
  deriving DecidableEq, Repr

/-- Modelled from the spec: the `MetadataSchema` container wraps the
schema JSON, a mapping from class identifier to class definition. -/
structure MetadataSchema where
  classes : List (String × ClassDefinition)
  deriving DecidableEq, Repr

/-- The value returned by `transcodeBinaryProperties`. -/
structure BinaryResults where
  featureTableJson : FeatureTableJson
  bufferViewsU8 : List (Nat × TypedBufferView)
  transcodedSchema : MetadataSchema
  transcodedClass : ClassDefinition
  deriving DecidableEq, Repr

/-- The `for propertyId in binaryProperties` loop of
`transcodeBinaryProperties`, with the mutable `bufferViewCount` counter
passed explicitly.  The dictionary is a plain object freshly built by the
partition step, so every key is an own key and the `hasOwnProperty` guard
never skips. -/
def transcodeBinaryLoop (featureCount : Nat) (binaryBody : BinaryBody) :
    List (String × JsonValue) → Nat →
    List (String × FeatureTableProperty) × List (String × TranscodedProperty)
      × List (Nat × TypedBufferView)
  | [], _ => ([], [], [])
  | (propertyId, property) :: rest, bufferViewCount =>
      let view := mkBinaryView featureCount binaryBody property
      let tail := transcodeBinaryLoop featureCount binaryBody rest
        (bufferViewCount + 1)
      ((propertyId, ⟨bufferViewCount⟩) :: tail.1,
       (propertyId, transcodePropertyType property) :: tail.2.1,
       (bufferViewCount, view) :: tail.2.2)

/-- Source `transcodeBinaryProperties`: run the loop starting at counter
0 and assemble the schema, the feature-table JSON and the buffer-view
dictionary. -/
def transcodeBinaryProperties (featureCount : Nat)
    (binaryProperties : List (String × JsonValue)) (binaryBody : BinaryBody) :
    BinaryResults :=
  let r := transcodeBinaryLoop featureCount binaryBody binaryProperties 0
  let transcodedClass : ClassDefinition := ⟨r.2.1⟩
  { featureTableJson :=
      { classId := "_batchTable", count := featureCount, properties := r.1 },
    bufferViewsU8 := r.2.2,
    transcodedSchema := { classes := [("_batchTable", transcodedClass)] },
    transcodedClass := transcodedClass }

/-- Lookup of the i-th slot in the buffer-view dictionary built by the
loop started at counter k: it holds the view of the i-th property. -/
theorem transcodeBinaryLoop_lookup_bv (fc : Nat) (bb : BinaryBody) :
    ∀ (props : List (String × JsonValue)) (k i : Nat) (h : i < props.length),
      (transcodeBinaryLoop fc bb props k).2.2.lookup (k + i) =
        some (mkBinaryView fc bb (props.get ⟨i, h⟩).2) := by
  intro props
  induction props with
  | nil => intro k i h; simp at h
  | cons hd rest ih =>
    intro k i h
    obtain ⟨pid, p⟩ := hd
    cases i with
    | zero => simp [transcodeBinaryLoop, List.lookup]
    | succ i =>
      have hlen : i < rest.length := Nat.lt_of_succ_lt_succ h
      have hne : k + (i + 1) ≠ k := by omega
      have hrec := ih (k + 1) i hlen
      have hbeq : (k + (i + 1) == k) = false := by simp [hne]
      simp only [transcodeBinaryLoop, List.lookup, List.get_cons_succ, hbeq]
      rw [show k + (i + 1) = k + 1 + i from by omega]
      exact hrec

/-- Lookup of a property identifier in the feature-table properties built
by the loop started at counter k: with pairwise distinct identifiers, the
i-th property maps to slot k + i. -/
theorem transcodeBinaryLoop_lookup_ft (fc : Nat) (bb : BinaryBody) :
    ∀ (props : List (String × JsonValue)) (k i : Nat) (h : i < props.length),
      (props.map Prod.fst).Nodup →
      (transcodeBinaryLoop fc bb props k).1.lookup (props.get ⟨i, h⟩).1 =
        some ⟨k + i⟩ := by
  intro props
  induction props with
  | nil => intro k i h; simp at h
  | cons hd rest ih =>
    intro k i h hnd
    obtain ⟨pid, p⟩ := hd
    have hnd' : pid ∉ rest.map Prod.fst ∧ (rest.map Prod.fst).Nodup := by
      simpa [List.nodup_cons] using hnd
    cases i with
    | zero => simp [transcodeBinaryLoop, List.lookup]
    | succ i =>
      have hlen : i < rest.length := Nat.lt_of_succ_lt_succ h
      have hne : (rest.get ⟨i, hlen⟩).1 ≠ pid := by
        intro he
        exact hnd'.1 (he ▸ List.mem_map_of_mem Prod.fst (rest.get_mem i hlen))
      have hrec := ih (k + 1) i hlen hnd'.2
      have hbeq : ((rest.get ⟨i, hlen⟩).1 == pid) = false := by simpa using hne
      simp only [transcodeBinaryLoop, List.lookup, List.get_cons_succ, hbeq]
      rw [show k + (i + 1) = k + 1 + i from by omega]
      exact hrec

/-- Slot keys produced by the loop started at counter k: the contiguous
range of length props.length starting at k. -/
theorem transcodeBinaryLoop_bv_keys (fc : Nat) (bb : BinaryBody) :
    ∀ (props : List (String × JsonValue)) (k : Nat),
      (transcodeBinaryLoop fc bb props k).2.2.map Prod.fst =
        List.range' k props.length := by
  intro props
  induction props with
  | nil => intro k; rfl
  | cons hd rest ih =>
    intro k
    obtain ⟨pid, p⟩ := hd
    simp [transcodeBinaryLoop, List.range'_succ, ih (k + 1)]

/-- Property identifiers of the feature-table properties built by the
loop: the input identifiers in iteration order. -/
theorem transcodeBinaryLoop_ft_keys (fc : Nat) (bb : BinaryBody) :
    ∀ (props : List (String × JsonValue)) (k : Nat),
      (transcodeBinaryLoop fc bb props k).1.map Prod.fst =
        props.map Prod.fst := by
  intro props
  induction props with
  | nil => intro k; rfl
  | cons hd rest ih =>
    intro k
    obtain ⟨pid, p⟩ := hd
    simp [transcodeBinaryLoop, ih (k + 1)]

/-- CLAIM C1: for every binary property, the typed buffer view
constructed for it shares the input `ArrayBuffer` (same handle, no
copy), starts at byte offset `binaryBody.byteOffset + property.byteOffset`
and spans exactly `featureCount` logical elements.  The embedding is
pure, so the shared buffer is also not mutated: the view carries the
input buffer value unchanged. -/
theorem transcodeBinaryProperties_view_layout :
    ∀ (featureCount : Nat) (binaryBody : BinaryBody)
      (binaryProperties : List (String × JsonValue)) (i : Nat)
      (h : i < binaryProperties.length),
      ∃ view : TypedBufferView,
        (transcodeBinaryProperties featureCount binaryProperties
            binaryBody).bufferViewsU8.lookup i = some view ∧
        view.buffer = binaryBody.buffer ∧
        view.elementCount = featureCount ∧
        view.byteOffset =
          (propByteOffset (binaryProperties.get ⟨i, h⟩).2).map
            (fun o => (binaryBody.byteOffset : Int) + o) := by
  intro fc bb props i h
  refine ⟨mkBinaryView fc bb (props.get ⟨i, h⟩).2, ?_, rfl, rfl, rfl⟩
  have := transcodeBinaryLoop_lookup_bv fc bb props 0 i h
  simpa [transcodeBinaryProperties] using this

/-- Demonstration buffer used by concrete witnesses. -/
def demoBuffer : ArrayBufferRef := ⟨7, [0, 0, 192, 63, 0, 0, 32, 64, 1, 2, 3, 4]⟩

/-- Demonstration `binaryBody` handle at byte offset 4. -/
def demoBody : BinaryBody := ⟨demoBuffer, 4⟩

/-- Demonstration SCALAR FLOAT property at byte offset 0. -/
def demoHeightProperty : JsonValue :=
  .obj [("componentType", .str "FLOAT"), ("type", .str "SCALAR"),
        ("byteOffset", .num 0)]

/-- Demonstration VEC2 UNSIGNED_BYTE property at byte offset 8. -/
def demoSpeedProperty : JsonValue :=
  .obj [("componentType", .str "UNSIGNED_BYTE"), ("type", .str "VEC2"),
        ("byteOffset", .num 8)]

/-- Demonstration binary-property dictionary with two entries. -/
def demoProps : List (String × JsonValue) :=
  [("height", demoHeightProperty), ("speed", demoSpeedProperty)]

/-- Witness for C1: the view of the first demonstration property starts
at byte 4 + 0 of the shared buffer and spans 2 logical elements. -/
theorem transcodeBinaryProperties_view_layout_witness :
    ∃ view : TypedBufferView,
      (transcodeBinaryProperties 2 demoProps demoBody).bufferViewsU8.lookup 0 =
        some view ∧
      view.buffer = demoBody.buffer ∧
      view.elementCount = 2 ∧
      view.byteOffset =
        (propByteOffset demoHeightProperty).map
          (fun o => (demoBody.byteOffset : Int) + o) :=
  transcodeBinaryProperties_view_layout 2 demoBody demoProps 0 (by decide)

/-- CLAIM C2: slot indices are assigned sequentially from 0 in iteration
order; the feature-table properties entry of the i-th binary property
records slot i, the buffer-view dictionary holds the view of that same
property under slot i, the identifiers keep iteration order, and the
slot keys are exactly the range 0 to the number of binary properties
minus one, each used once. -/
theorem transcodeBinaryProperties_slots_sequential :
    ∀ (featureCount : Nat) (binaryBody : BinaryBody)
      (binaryProperties : List (String × JsonValue)),
      (binaryProperties.map Prod.fst).Nodup →
      (∀ (i : Nat) (h : i < binaryProperties.length),
        (transcodeBinaryProperties featureCount binaryProperties
            binaryBody).featureTableJson.properties.lookup
            (binaryProperties.get ⟨i, h⟩).1 = some ⟨i⟩ ∧
        (transcodeBinaryProperties featureCount binaryProperties
            binaryBody).bufferViewsU8.lookup i =
          some (mkBinaryView featureCount binaryBody
            (binaryProperties.get ⟨i, h⟩).2)) ∧
      (transcodeBinaryProperties featureCount binaryProperties
          binaryBody).featureTableJson.properties.map Prod.fst =
        binaryProperties.map Prod.fst ∧
      (transcodeBinaryProperties featureCount binaryProperties
          binaryBody).bufferViewsU8.map Prod.fst =
        List.range binaryProperties.length := by
  intro fc bb props hnd
  refine ⟨?_, ?_, ?_⟩
  · intro i h
    constructor
    · have := transcodeBinaryLoop_lookup_ft fc bb props 0 i h hnd
      simpa [transcodeBinaryProperties] using this
    · have := transcodeBinaryLoop_lookup_bv fc bb props 0 i h
      simpa [transcodeBinaryProperties] using this
  · have := transcodeBinaryLoop_ft_keys fc bb props 0
    simpa [transcodeBinaryProperties] using this
  · have := transcodeBinaryLoop_bv_keys fc bb props 0
    simpa [transcodeBinaryProperties, List.range_eq_range'] using this

/-- Witness for C2: on the two demonstration properties, height gets
slot 0, speed gets slot 1, and the slot keys are exactly the two-element
range. -/
theorem transcodeBinaryProperties_slots_sequential_witness :
    (transcodeBinaryProperties 2 demoProps
        demoBody).featureTableJson.properties.lookup "speed" = some ⟨1⟩ ∧
    (transcodeBinaryProperties 2 demoProps demoBody).bufferViewsU8.map
        Prod.fst = List.range 2 := by
  have h := transcodeBinaryProperties_slots_sequential 2 demoBody demoProps
    (by decide)
  exact ⟨((h.1 1 (by decide)).1), by simpa using h.2.2⟩

/-- The record returned by `partitionProperties`, with the deprecation
warnings the call emits made explicit. -/
structure PartitionResults where
  binaryProperties : List (String × JsonValue)
  jsonProperties : List (String × JsonValue)
  extras : Option JsonValue
  extensions : Option JsonValue
  warnings : List String

/-- Keys the partition loop skips because they are handled separately. -/
def isReservedKey (k : String) : Bool :=
  k = "HIERARCHY" || k = "extensions" || k = "extras"

/-- The `Array.isArray` test. -/
def JsonValue.isArray : JsonValue → Bool
  | .arr _ => true
  | _ => false

/-- The `for propertyId in batchTable` loop of `partitionProperties`:
skip keys that are not own properties and the reserved keys, put array
values into the JSON partition and everything else into the binary
partition, in iteration order. -/
def partitionLoop (batchTable : JsObject) :
    List String → List (String × JsonValue) × List (String × JsonValue)
  | [] => ([], [])
  | propertyId :: rest =>
      let tail := partitionLoop batchTable rest
      if !batchTable.hasOwn propertyId || isReservedKey propertyId then tail
      else
        match batchTable.get propertyId with
        | some property =>
            if property.isArray then ((propertyId, property) :: tail.1, tail.2)
            else (tail.1, (propertyId, property) :: tail.2)
        | none => tail

/-- The deprecation message `partitionProperties` emits when it sees a
legacy HIERARCHY field. -/
def hierarchyDeprecationMessage : String :=
  "The batch table HIERARCHY property has been moved to an extension. Use extensions.3DTILES_batch_table_hierarchy instead."

/-- Write back of the mutated extensions object into the batch table.
In JavaScript the local `extensions` aliases the object reached through
the property chain, so assigning through it updates the object stored
under the key wherever the chain found it; state passing makes this
explicit. -/
def JsObject.setExtensions (o : JsObject) (v : JsonValue) : JsObject :=
  if (o.own.lookup "extensions").isSome then
    { o with own := updateAssoc o.own "extensions" v }
  else if (o.inherited.lookup "extensions").isSome then
    { o with inherited := updateAssoc o.inherited "extensions" v }
  else o

/-- Source `partitionProperties`: fold a legacy HIERARCHY field into the
extensions object under the fixed key (creating the object when the slot
is not defined, and mutating the existing object otherwise — the second
component of the result is the batch table after that mutation), then
partition the remaining own properties.  When the defined extensions
value is not an object, the JavaScript assignment would throw in strict
mode; here it is a no-op, a case outside every claim. -/
def partitionProperties (batchTable : JsObject) :
    PartitionResults × JsObject :=
  let legacyHierarchy := batchTable.get "HIERARCHY"
  let extras := batchTable.get "extras"
  let extensions := batchTable.get "extensions"
  match getDefined legacyHierarchy with
  | some legacy =>
      let baseExt :=
        match getDefined extensions with
        | some e => e
        | none => .obj []
      let newExt := baseExt.setField "3DTILES_batch_table_hierarchy" legacy
      let batchTable1 :=
        if jsDefined extensions then batchTable.setExtensions newExt
        else batchTable
      let parts := partitionLoop batchTable1 batchTable1.forInKeys
      ({ binaryProperties := parts.2, jsonProperties := parts.1,
         extras := extras, extensions := some newExt,
         warnings := [hierarchyDeprecationMessage] }, batchTable1)
  | none =>
      let parts := partitionLoop batchTable batchTable.forInKeys
      ({ binaryProperties := parts.2, jsonProperties := parts.1,
         extras := extras, extensions := extensions,
         warnings := [] }, batchTable)

/-- Lookup on a cons cell, stated with a decidable conditional. -/
theorem lookup_cons_ite {α β : Type} [BEq α] [LawfulBEq α] [DecidableEq α]
    (k a : α) (b : β) (tl : List (α × β)) :
    List.lookup k ((a, b) :: tl) = if k = a then some b else List.lookup k tl := by
  rw [List.lookup_cons]
  by_cases h : k = a
  · subst h; simp
  · have hbeq : (k == a) = false := beq_false_of_ne h
    simp [hbeq, h]

/-- Updating one key leaves lookups of every other key unchanged. -/
theorem lookup_updateAssoc_ne (l : List (String × JsonValue)) (k : String)
    (v : JsonValue) (pid : String) (h : pid ≠ k) :
    List.lookup pid (updateAssoc l k v) = List.lookup pid l := by
  induction l with
  | nil => rfl
  | cons hd tl ih =>
    obtain ⟨a, b⟩ := hd
    by_cases hak : a = k
    · subst hak
      simp [updateAssoc, lookup_cons_ite, h, List.map] at ih ⊢
      simpa [updateAssoc] using ih
    · simp only [updateAssoc, List.map_cons] at ih ⊢
      rw [show (if (a, b).1 = k then (k, v) else (a, b)) = (a, b) from by
        simp [hak]]
      rw [lookup_cons_ite, lookup_cons_ite]
      by_cases hpa : pid = a
      · simp [hpa]
      · simpa [hpa] using ih

/-- Updating a key that is present makes its lookup return the new
value. -/
theorem lookup_updateAssoc_eq (l : List (String × JsonValue)) (k : String)
    (v : JsonValue) (h : (List.lookup k l).isSome) :
    List.lookup k (updateAssoc l k v) = some v := by
  induction l with
  | nil => simp [List.lookup] at h
  | cons hd tl ih =>
    obtain ⟨a, b⟩ := hd
    by_cases hak : a = k
    · subst hak
      simp [updateAssoc, lookup_cons_ite]
    · simp only [updateAssoc, List.map_cons] at ih ⊢
      rw [show (if (a, b).1 = k then (k, v) else (a, b)) = (a, b) from by
        simp [hak]]
      rw [lookup_cons_ite] at h ⊢
      have hka : ¬k = a := fun he => hak he.symm
      rw [if_neg hka] at h ⊢
      simpa [updateAssoc] using ih h

/-- Updating a value does not change the key list. -/
theorem updateAssoc_keys (l : List (String × JsonValue)) (k : String)
    (v : JsonValue) : (updateAssoc l k v).map Prod.fst = l.map Prod.fst := by
  induction l with
  | nil => rfl
  | cons hd tl ih =>
    by_cases h : hd.1 = k <;> simp [updateAssoc, h, ih] <;>
      simpa [updateAssoc] using ih

/-- Lookup of a key appended at the end of a list in which it is
absent. -/
theorem lookup_append_singleton (l : List (String × JsonValue)) (k : String)
    (v : JsonValue) (h : List.lookup k l = none) :
    List.lookup k (l ++ [(k, v)]) = some v := by
  induction l with
  | nil => simp [lookup_cons_ite]
  | cons hd tl ih =>
    obtain ⟨a, b⟩ := hd
    rw [lookup_cons_ite] at h
    by_cases hka : k = a
    · rw [if_pos hka] at h; cases h
    · rw [if_neg hka] at h
      rw [List.cons_append, lookup_cons_ite, if_neg hka]
      exact ih h

/-- Assignment of a field on an object makes that field read back the
assigned value. -/
theorem setField_obj_lookup_self (fields : List (String × JsonValue))
    (k : String) (v : JsonValue) :
    ∃ fields2, (JsonValue.obj fields).setField k v = .obj fields2 ∧
      List.lookup k fields2 = some v := by
  by_cases h : (List.lookup k fields).isSome
  · exact ⟨updateAssoc fields k v, by simp [JsonValue.setField, h],
      lookup_updateAssoc_eq fields k v h⟩
  · have hn : List.lookup k fields = none := by
      cases hx : List.lookup k fields
      · rfl
      · rw [hx] at h; simp at h
    exact ⟨fields ++ [(k, v)], by simp [JsonValue.setField, h],
      lookup_append_singleton fields k v hn⟩

/-- Selection function describing which keys land in the JSON partition:
own non-reserved keys whose value is an array. -/
def jsonSelect (bt : JsObject) (k : String) : Option (String × JsonValue) :=
  match bt.own.lookup k with
  | some v =>
      if isReservedKey k = false ∧ v.isArray = true then some (k, v) else none
  | none => none

/-- Selection function describing which keys land in the binary
partition: own non-reserved keys whose value is not an array. -/
def binarySelect (bt : JsObject) (k : String) : Option (String × JsonValue) :=
  match bt.own.lookup k with
  | some v =>
      if isReservedKey k = false ∧ v.isArray = false then some (k, v) else none
  | none => none

/-- Closed form of the partition loop: both partitions are filterMaps of
the key order by the selection functions. -/
theorem partitionLoop_eq_filterMap (bt : JsObject) :
    ∀ keys : List String,
      partitionLoop bt keys =
        (keys.filterMap (jsonSelect bt), keys.filterMap (binarySelect bt)) := by
  intro keys
  induction keys with
  | nil => rfl
  | cons k rest ih =>
    by_cases hown : bt.hasOwn k
    · obtain ⟨pv, hpv⟩ : ∃ pv, bt.own.lookup k = some pv := by
        unfold JsObject.hasOwn at hown
        cases hx : bt.own.lookup k
        · rw [hx] at hown; simp at hown
        · exact ⟨_, rfl⟩
      have hget : bt.get k = some pv := by simp [JsObject.get, hpv]
      by_cases hres : isReservedKey k
      · simp [partitionLoop, hown, hres, jsonSelect, binarySelect, hpv,
          List.filterMap_cons, ih]
      · by_cases harr : pv.isArray
        · simp [partitionLoop, hown, hres, hget, harr, jsonSelect,
            binarySelect, hpv, List.filterMap_cons, ih]
        · simp [partitionLoop, hown, hres, hget, harr, jsonSelect,
            binarySelect, hpv, List.filterMap_cons, ih]
    · have hnone : bt.own.lookup k = none := by
        unfold JsObject.hasOwn at hown
        cases hx : bt.own.lookup k
        · rfl
        · rw [hx] at hown; simp at hown
      simp [partitionLoop, hown, jsonSelect, binarySelect, hnone,
        List.filterMap_cons, ih]

/-- Membership in the JSON partition produced by the loop. -/
theorem mem_partitionLoop_json (bt : JsObject) (keys : List String)
    (pid : String) (v : JsonValue) :
    (pid, v) ∈ (partitionLoop bt keys).1 ↔
      pid ∈ keys ∧ bt.own.lookup pid = some v ∧ isReservedKey pid = false ∧
        v.isArray = true := by
  rw [partitionLoop_eq_filterMap]
  simp only [List.mem_filterMap]
  constructor
  · rintro ⟨k, hk, hsel⟩
    unfold jsonSelect at hsel
    cases hx : bt.own.lookup k with
    | none => rw [hx] at hsel; cases hsel
    | some pv =>
      rw [hx] at hsel
      have hsel2 : (if isReservedKey k = false ∧ pv.isArray = true then
          some (k, pv) else none) = some (pid, v) := hsel
      by_cases hcond : isReservedKey k = false ∧ pv.isArray = true
      · rw [if_pos hcond] at hsel2
        obtain ⟨rfl, rfl⟩ : k = pid ∧ pv = v := by
          injection hsel2 with he; exact Prod.mk.inj he
        exact ⟨hk, hx, hcond⟩
      · rw [if_neg hcond] at hsel2; cases hsel2
  · rintro ⟨hmem, hlk, hres, harr⟩
    exact ⟨pid, hmem, by simp [jsonSelect, hlk, hres, harr]⟩

/-- Membership in the binary partition produced by the loop. -/
theorem mem_partitionLoop_binary (bt : JsObject) (keys : List String)
    (pid : String) (v : JsonValue) :
    (pid, v) ∈ (partitionLoop bt keys).2 ↔
      pid ∈ keys ∧ bt.own.lookup pid = some v ∧ isReservedKey pid = false ∧
        v.isArray = false := by
  rw [partitionLoop_eq_filterMap]
  simp only [List.mem_filterMap]
  constructor
  · rintro ⟨k, hk, hsel⟩
    unfold binarySelect at hsel
    cases hx : bt.own.lookup k with
    | none => rw [hx] at hsel; cases hsel
    | some pv =>
      rw [hx] at hsel
      have hsel2 : (if isReservedKey k = false ∧ pv.isArray = false then
          some (k, pv) else none) = some (pid, v) := hsel
      by_cases hcond : isReservedKey k = false ∧ pv.isArray = false
      · rw [if_pos hcond] at hsel2
        obtain ⟨rfl, rfl⟩ : k = pid ∧ pv = v := by
          injection hsel2 with he; exact Prod.mk.inj he
        exact ⟨hk, hx, hcond⟩
      · rw [if_neg hcond] at hsel2; cases hsel2
  · rintro ⟨hmem, hlk, hres, harr⟩
    exact ⟨pid, hmem, by simp [binarySelect, hlk, hres, harr]⟩

/-- A key with an own value occurs in the for-in key order. -/
theorem mem_keys_of_lookup :
    ∀ (l : List (String × JsonValue)) (k : String) (v : JsonValue),
      List.lookup k l = some v → k ∈ l.map Prod.fst := by
  intro l k v h
  induction l with
  | nil => cases h
  | cons hd tl ih =>
    obtain ⟨a, b⟩ := hd
    rw [lookup_cons_ite] at h
    by_cases hka : k = a
    · simp [hka]
    · rw [if_neg hka] at h
      simp [ih h]

/-- A key with an own value occurs in the for-in iteration order. -/
theorem mem_forInKeys_of_lookup (bt : JsObject) (pid : String) (v : JsonValue)
    (h : bt.own.lookup pid = some v) : pid ∈ bt.forInKeys :=
  List.mem_append_left _ (mem_keys_of_lookup bt.own pid v h)

/-- Membership in the JSON partition of the loop run over the full
for-in iteration order, in terms of own lookups only. -/
theorem partition_forIn_json (bt : JsObject) (pid : String) (v : JsonValue) :
    (pid, v) ∈ (partitionLoop bt bt.forInKeys).1 ↔
      bt.own.lookup pid = some v ∧ isReservedKey pid = false ∧
        v.isArray = true := by
  rw [mem_partitionLoop_json]
  constructor
  · rintro ⟨-, h⟩; exact h
  · rintro ⟨hlk, h⟩; exact ⟨mem_forInKeys_of_lookup _ _ _ hlk, hlk, h⟩

/-- Membership in the binary partition of the loop run over the full
for-in iteration order, in terms of own lookups only. -/
theorem partition_forIn_binary (bt : JsObject) (pid : String) (v : JsonValue) :
    (pid, v) ∈ (partitionLoop bt bt.forInKeys).2 ↔
      bt.own.lookup pid = some v ∧ isReservedKey pid = false ∧
        v.isArray = false := by
  rw [mem_partitionLoop_binary]
  constructor
  · rintro ⟨-, h⟩; exact h
  · rintro ⟨hlk, h⟩; exact ⟨mem_forInKeys_of_lookup _ _ _ hlk, hlk, h⟩

/-- The extensions write back leaves own lookups of other keys
unchanged. -/
theorem setExtensions_own_lookup_ne (o : JsObject) (v : JsonValue)
    (pid : String) (h : pid ≠ "extensions") :
    (o.setExtensions v).own.lookup pid = o.own.lookup pid := by
  unfold JsObject.setExtensions
  split_ifs with h1 h2 <;> simp [lookup_updateAssoc_ne _ _ _ _ h]

/-- CLAIM C5: every own property identifier of the batch table other
than the reserved keys HIERARCHY, extensions and extras lands in exactly
one partition: in jsonProperties when its value is an array, otherwise
in binaryProperties.  The two biconditionals imply that no identifier is
in both partitions (the array test cannot be both true and false) and
that reserved or inherited identifiers are in neither (an inherited-only
identifier has no own lookup). -/
theorem partitionProperties_partition (bt : JsObject) (pid : String)
    (v : JsonValue) :
    ((pid, v) ∈ (partitionProperties bt).1.jsonProperties ↔
      bt.own.lookup pid = some v ∧ isReservedKey pid = false ∧
        v.isArray = true) ∧
    ((pid, v) ∈ (partitionProperties bt).1.binaryProperties ↔
      bt.own.lookup pid = some v ∧ isReservedKey pid = false ∧
        v.isArray = false) := by
  cases hleg : getDefined (bt.get "HIERARCHY") with
  | none =>
    simp only [partitionProperties, hleg]
    exact ⟨partition_forIn_json bt pid v, partition_forIn_binary bt pid v⟩
  | some legacy =>
    by_cases hres : isReservedKey pid
    · simp only [partitionProperties, hleg]
      constructor
      · rw [partition_forIn_json]; simp [hres]
      · rw [partition_forIn_binary]; simp [hres]
    · have hne : pid ≠ "extensions" := by
        intro he; subst he; simp [isReservedKey] at hres
      by_cases hdef : jsDefined (bt.get "extensions") = true
      · simp only [partitionProperties, hleg, hdef, if_true]
        constructor
        · rw [partition_forIn_json, setExtensions_own_lookup_ne _ _ _ hne]
        · rw [partition_forIn_binary, setExtensions_own_lookup_ne _ _ _ hne]
      · simp only [partitionProperties, hleg]
        rw [if_neg hdef]
        exact ⟨partition_forIn_json bt pid v, partition_forIn_binary bt pid v⟩

/-- CLAIM C6: a legacy HIERARCHY field makes `partitionProperties` emit
the compatibility warning and fold the field value into the extensions
mapping under the key 3DTILES_batch_table_hierarchy: with no defined
extensions input, the result is an extensions object with exactly that
one entry; with an existing extensions object the entry under that key
reads back the legacy value (the fold overwrites any previous entry). -/
theorem partitionProperties_hierarchy_fold (bt : JsObject)
    (legacy : JsonValue)
    (h : getDefined (bt.get "HIERARCHY") = some legacy) :
    (partitionProperties bt).1.warnings = [hierarchyDeprecationMessage] ∧
    (getDefined (bt.get "extensions") = none →
      (partitionProperties bt).1.extensions =
        some (.obj [("3DTILES_batch_table_hierarchy", legacy)])) ∧
    (∀ fields : List (String × JsonValue),
      getDefined (bt.get "extensions") = some (.obj fields) →
      ∃ fields2, (partitionProperties bt).1.extensions =
          some (.obj fields2) ∧
        List.lookup "3DTILES_batch_table_hierarchy" fields2 = some legacy) := by
  refine ⟨?_, ?_, ?_⟩
  · simp only [partitionProperties, h]
  · intro hext
    simp only [partitionProperties, h, hext]
    simp [JsonValue.setField]
  · intro fields hext
    obtain ⟨fields2, hset, hlk⟩ :=
      setField_obj_lookup_self fields "3DTILES_batch_table_hierarchy" legacy
    refine ⟨fields2, ?_, hlk⟩
    simp only [partitionProperties, h, hext, hset]

/-- Demonstration legacy hierarchy payload. -/
def demoLegacyHierarchy : JsonValue := .obj [("classes", .arr [])]

/-- Demonstration batch table carrying a legacy HIERARCHY field and no
extensions. -/
def demoBatchTableHier : JsObject :=
  ⟨[("HIERARCHY", demoLegacyHierarchy), ("name", .arr [.str "a"])], []⟩

/-- Witness for C6: on the demonstration table the warning is emitted
and the extensions object holds exactly the folded entry. -/
theorem partitionProperties_hierarchy_fold_witness :
    (partitionProperties demoBatchTableHier).1.warnings =
      [hierarchyDeprecationMessage] ∧
    (partitionProperties demoBatchTableHier).1.extensions =
      some (.obj [("3DTILES_batch_table_hierarchy", demoLegacyHierarchy)]) := by
  have h := partitionProperties_hierarchy_fold demoBatchTableHier
    demoLegacyHierarchy rfl
  exact ⟨h.1, h.2.1 rfl⟩

/-- CLAIM C10 (implicit): when the batch table has both a legacy
HIERARCHY field and an own extensions object, the partition writes the
legacy entry into that very object: in this state-passing embedding the
returned batch table differs from the input exactly in the value stored
under the extensions key, the returned extensions value is the value now
stored in the batch table (the aliasing), and every other own property
is unchanged. -/
theorem partitionProperties_mutates_extensions (bt : JsObject)
    (legacy : JsonValue) (fields : List (String × JsonValue))
    (hleg : getDefined (bt.get "HIERARCHY") = some legacy)
    (hext : bt.own.lookup "extensions" = some (.obj fields)) :
    (partitionProperties bt).2.own =
      updateAssoc bt.own "extensions"
        ((JsonValue.obj fields).setField "3DTILES_batch_table_hierarchy"
          legacy) ∧
    (partitionProperties bt).2.inherited = bt.inherited ∧
    (partitionProperties bt).1.extensions =
      some ((JsonValue.obj fields).setField "3DTILES_batch_table_hierarchy"
        legacy) ∧
    (partitionProperties bt).2.get "extensions" =
      some ((JsonValue.obj fields).setField "3DTILES_batch_table_hierarchy"
        legacy) ∧
    (∀ pid, pid ≠ "extensions" →
      (partitionProperties bt).2.own.lookup pid = bt.own.lookup pid) := by
  have hget : bt.get "extensions" = some (.obj fields) := by
    simp [JsObject.get, hext]
  have hgd : getDefined (bt.get "extensions") = some (.obj fields) := by
    rw [getDefined, hget]; rfl
  have hdef : jsDefined (bt.get "extensions") = true := by rw [hget]; rfl
  have hiss : (bt.own.lookup "extensions").isSome := by rw [hext]; rfl
  have hupd := lookup_updateAssoc_eq bt.own "extensions"
    ((JsonValue.obj fields).setField "3DTILES_batch_table_hierarchy" legacy)
    hiss
  refine ⟨?_, ?_, ?_, ?_, ?_⟩
  · simp [partitionProperties, hleg, hgd, hdef, JsObject.setExtensions, hiss]
  · simp [partitionProperties, hleg, hgd, hdef, JsObject.setExtensions, hiss]
  · simp [partitionProperties, hleg, hgd, hdef]
  · simp only [partitionProperties, hleg, hgd, hdef]
    rw [if_pos trivial]
    simp only [JsObject.setExtensions, hiss]
    rw [if_pos trivial]
    simp only [JsObject.get, hupd]
  · intro pid hne
    simp [partitionProperties, hleg, hgd, hdef, JsObject.setExtensions, hiss,
      lookup_updateAssoc_ne _ _ _ _ hne]

/-- Demonstration batch table with both a legacy HIERARCHY field and an
existing extensions object. -/
def demoBatchTableBoth : JsObject :=
  ⟨[("HIERARCHY", demoLegacyHierarchy),
    ("extensions", .obj [("other_extension", .bool true)]),
    ("name", .arr [.str "a"])], []⟩

/-- Witness for C10: on the demonstration table, the returned batch
table stores the folded entry under the extensions key and the name
property is untouched. -/
theorem partitionProperties_mutates_extensions_witness :
    (partitionProperties demoBatchTableBoth).2.get "extensions" =
      some ((JsonValue.obj [("other_extension", .bool true)]).setField
        "3DTILES_batch_table_hierarchy" demoLegacyHierarchy) ∧
    (partitionProperties demoBatchTableBoth).2.own.lookup "name" =
      demoBatchTableBoth.own.lookup "name" := by
  have h := partitionProperties_mutates_extensions demoBatchTableBoth
    demoLegacyHierarchy [("other_extension", .bool true)] rfl rfl
  exact ⟨h.2.2.2.1, h.2.2.2.2 "name" (by decide)⟩

/-- Modelled from the spec: the hierarchy object constructed by the
`BatchTableHierarchy` collaborator (not among the source files) from the
extension payload and the shared binary body. -/
structure BatchTableHierarchy where
  extension : JsonValue
  binaryBody : BinaryBody

/-- Source `initializeHierarchy`: absent when `extensions` is not
defined or lacks a defined entry under the fixed key, otherwise the
hierarchy built from the payload and the shared binary body. -/
def initializeHierarchy (extensions : Option JsonValue)
    (binaryBody : BinaryBody) : Option BatchTableHierarchy :=
  match getDefined extensions with
  | none => none
  | some exts =>
      match getDefined (exts.getField "3DTILES_batch_table_hierarchy") with
      | none => none
      | some hierarchy => some ⟨hierarchy, binaryBody⟩

/-- Modelled from the spec: the `JsonMetadataTable` collaborator wraps
the feature count and the JSON-valued properties. -/
structure JsonMetadataTable where
  count : Nat
  properties : List (String × JsonValue)

/-- Modelled from the spec: the `FeatureTable` collaborator wraps the
transcoded pieces (the `class` field is named `classDefinition`, since
`class` is reserved in Lean). -/
structure FeatureTable where
  featureTable : FeatureTableJson
  classDefinition : ClassDefinition
  bufferViews : List (Nat × TypedBufferView)
  jsonMetadataTable : JsonMetadataTable
  batchTableHierarchy : Option BatchTableHierarchy

/-- Modelled from the spec: the `FeatureMetadata` bundle returned by the
orchestrator. -/
structure FeatureMetadata where
  schema : MetadataSchema
  featureTables : List (String × FeatureTable)
  extensions : Option JsonValue
  extras : Option JsonValue

/-- The error class of a failed precondition. -/
inductive CesiumError where
  | invalidArgument (message : String)

/-- The options object passed to `parseBatchTable`; `none` models an
absent member. -/
structure ParseOptions where
  count : Option Int
  batchTable : Option JsObject
  binaryBody : Option BinaryBody

/-- Source `parseBatchTable`.  The precondition guards are modelled from
the spec, since `Check` is not among the source files: count must be a
non-negative integer (numbers are integers in this embedding, so
integrality is carried by the type) and batchTable and binaryBody must
be present; a violation fails with an InvalidArgument error before any
transcoding work, so no partial bundle is ever produced.  The body then
partitions, builds the JSON table, initializes the hierarchy, transcodes
the binary properties and assembles the bundle exactly as the source
does. -/
def parseBatchTable (options : ParseOptions) :
    Except CesiumError FeatureMetadata :=
  match options.count with
  | none => .error (.invalidArgument "options.count must be a number")
  | some c =>
    if c < 0 then
      .error (.invalidArgument "options.count must be a non-negative integer")
    else
      match options.batchTable with
      | none => .error (.invalidArgument "options.batchTable must be an object")
      | some batchTable =>
        match options.binaryBody with
        | none =>
            .error (.invalidArgument "options.binaryBody must be an object")
        | some binaryBody =>
            let featureCount := c.toNat
            let partitionResults := (partitionProperties batchTable).1
            let jsonMetadataTable : JsonMetadataTable :=
              ⟨featureCount, partitionResults.jsonProperties⟩
            let hierarchy :=
              initializeHierarchy partitionResults.extensions binaryBody
            let binaryResults := transcodeBinaryProperties featureCount
              partitionResults.binaryProperties binaryBody
            let featureTables :=
              [("_batchTable",
                FeatureTable.mk binaryResults.featureTableJson
                  binaryResults.transcodedClass binaryResults.bufferViewsU8
                  jsonMetadataTable hierarchy)]
            .ok { schema := binaryResults.transcodedSchema,
                  featureTables := featureTables,
                  extensions := partitionResults.extensions,
                  extras := partitionResults.extras }


/-- Demonstration batch table with one JSON property and no hierarchy
input of either kind. -/
def demoJsonTable : JsObject := ⟨[("name", .arr [.str "a", .str "b"])], []⟩

/-- CLAIM C7: `initializeHierarchy` returns absent (not an error) when
extensions is absent or lacks a defined entry under the key
3DTILES_batch_table_hierarchy, and builds the hierarchy from the payload
and the shared binary body when the entry is present; consequently an
input with neither the legacy HIERARCHY field nor the extension yields a
bundle whose feature table has no hierarchy object. -/
theorem initializeHierarchy_absent_present (binaryBody : BinaryBody) :
    (initializeHierarchy none binaryBody = none) ∧
    (∀ exts : JsonValue,
      getDefined (exts.getField "3DTILES_batch_table_hierarchy") = none →
      initializeHierarchy (some exts) binaryBody = none) ∧
    (∀ exts hierarchy : JsonValue,
      jsDefined (some exts) = true →
      getDefined (exts.getField "3DTILES_batch_table_hierarchy") =
        some hierarchy →
      initializeHierarchy (some exts) binaryBody =
        some ⟨hierarchy, binaryBody⟩) ∧
    (∀ (c : Int) (bt : JsObject), 0 ≤ c →
      getDefined (bt.get "HIERARCHY") = none →
      (∀ exts, getDefined (bt.get "extensions") = some exts →
        getDefined (exts.getField "3DTILES_batch_table_hierarchy") = none) →
      ∃ bundle,
        parseBatchTable ⟨some c, some bt, some binaryBody⟩ = .ok bundle ∧
        ∃ ft, bundle.featureTables.lookup "_batchTable" = some ft ∧
          ft.batchTableHierarchy = none) := by
  refine ⟨rfl, ?_, ?_, ?_⟩
  · intro exts hkey
    by_cases hd : jsDefined (some exts) = true
    · have h1 : getDefined (some exts) = some exts := by simp [getDefined, hd]
      simp [initializeHierarchy, h1, hkey]
    · have h1 : getDefined (some exts) = none := by simp [getDefined, hd]
      simp [initializeHierarchy, h1]
  · intro exts hierarchy hd hkey
    have h1 : getDefined (some exts) = some exts := by simp [getDefined, hd]
    simp [initializeHierarchy, h1, hkey]
  · intro c bt hc hleg hext
    have hnl : ¬ c < 0 := not_lt.mpr hc
    have hpe : (partitionProperties bt).1.extensions = bt.get "extensions" := by
      simp only [partitionProperties, hleg]
    have hier : initializeHierarchy (bt.get "extensions") binaryBody = none := by
      cases hx : getDefined (bt.get "extensions") with
      | none => simp [initializeHierarchy, hx]
      | some exts =>
        have hkey := hext exts hx
        simp [initializeHierarchy, hx, hkey]
    simp only [parseBatchTable]
    rw [if_neg hnl]
    refine ⟨_, rfl, ?_⟩
    simp only [List.lookup_cons, beq_self_eq_true]
    refine ⟨_, rfl, ?_⟩
    simpa [hpe] using hier

/-- Witness for C7: an input with neither hierarchy form yields the
bundle with an absent hierarchy. -/
theorem initializeHierarchy_absent_present_witness :
    ∃ bundle,
      parseBatchTable ⟨some 2, some demoJsonTable, some demoBody⟩ =
        .ok bundle ∧
      ∃ ft, bundle.featureTables.lookup "_batchTable" = some ft ∧
        ft.batchTableHierarchy = none := by
  refine (initializeHierarchy_absent_present demoBody).2.2.2 2 demoJsonTable
    (by decide) rfl ?_
  intro exts hx
  have hgd : getDefined (demoJsonTable.get "extensions") = none := rfl
  rw [hgd] at hx
  cases hx

/-- CLAIM C8: the preconditions of `parseBatchTable` are checked first:
an absent count, a negative count, an absent batchTable or an absent
binaryBody makes the call fail with an InvalidArgument error, so no
partial bundle is ever returned (the result type carries either an error
or a complete bundle). -/
theorem parseBatchTable_precondition :
    ∀ options : ParseOptions,
      (options.count = none ∨ (∃ c, options.count = some c ∧ c < 0) ∨
        options.batchTable = none ∨ options.binaryBody = none) →
      ∃ message,
        parseBatchTable options = .error (.invalidArgument message) := by
  intro options hbad
  obtain ⟨c0, bt0, bb0⟩ := options
  rcases hbad with h | ⟨c, hc, hneg⟩ | h | h
  · subst h
    exact ⟨"options.count must be a number", by simp [parseBatchTable]⟩
  · simp only at hc
    subst hc
    exact ⟨"options.count must be a non-negative integer",
      by simp [parseBatchTable, hneg]⟩
  · simp only at h
    subst h
    cases c0 with
    | none => exact ⟨"options.count must be a number", by simp [parseBatchTable]⟩
    | some c =>
      by_cases hneg : c < 0
      · exact ⟨"options.count must be a non-negative integer",
          by simp [parseBatchTable, hneg]⟩
      · exact ⟨"options.batchTable must be an object",
          by simp [parseBatchTable, hneg]⟩
  · simp only at h
    subst h
    cases c0 with
    | none => exact ⟨"options.count must be a number", by simp [parseBatchTable]⟩
    | some c =>
      by_cases hneg : c < 0
      · exact ⟨"options.count must be a non-negative integer",
          by simp [parseBatchTable, hneg]⟩
      · cases bt0 with
        | none => exact ⟨"options.batchTable must be an object",
            by simp [parseBatchTable, hneg]⟩
        | some bt => exact ⟨"options.binaryBody must be an object",
            by simp [parseBatchTable, hneg]⟩

/-- Witness for C8: a negative count is rejected with an InvalidArgument
error. -/
theorem parseBatchTable_precondition_witness :
    ∃ message,
      parseBatchTable ⟨some (-1), some demoJsonTable, some demoBody⟩ =
        .error (.invalidArgument message) :=
  parseBatchTable_precondition ⟨some (-1), some demoJsonTable, some demoBody⟩
    (Or.inr (Or.inl ⟨-1, rfl, by decide⟩))

/-- Schema component of a run of the transcoder. -/
def runSchema : Except CesiumError FeatureMetadata → Option MetadataSchema
  | .ok bundle => some bundle.schema
  | .error _ => none

/-- Slot assignment component (property identifier to buffer-view slot)
of a run of the transcoder. -/
def runSlotAssignments :
    Except CesiumError FeatureMetadata →
      Option (List (String × FeatureTableProperty))
  | .ok bundle =>
      (bundle.featureTables.lookup "_batchTable").map
        (fun ft => ft.featureTable.properties)
  | .error _ => none

/-- View byte ranges (slot, starting byte offset, logical element count)
of a run of the transcoder; the identity of the underlying buffer is
deliberately not part of the range. -/
def runViewByteRanges :
    Except CesiumError FeatureMetadata →
      Option (List (Nat × Option Int × Nat))
  | .ok bundle =>
      (bundle.featureTables.lookup "_batchTable").map
        (fun ft => ft.bufferViews.map
          (fun sv => (sv.1, sv.2.byteOffset, sv.2.elementCount)))
  | .error _ => none

/-- CLAIM C9: `parseBatchTable` is deterministic: two runs on identical
inputs produce bundles with identical schemas, identical buffer-view
slot assignments and identical view byte ranges.  The embedding is a
pure function, which makes this hold definitionally. -/
theorem parseBatchTable_deterministic :
    ∀ options : ParseOptions,
      runSchema (parseBatchTable options) =
        runSchema (parseBatchTable options) ∧
      runSlotAssignments (parseBatchTable options) =
        runSlotAssignments (parseBatchTable options) ∧
      runViewByteRanges (parseBatchTable options) =
        runViewByteRanges (parseBatchTable options) :=
  fun _ => ⟨rfl, rfl, rfl⟩
